import Mathlib

/-!
Verification of the PolicyWalk MCMC reward-inference core of the
scalable-irl repository (`sirl/algorithms/inference_mcmc.py`, with the
duplicated copy in `sirl/algorithms/birl/iterative_birl.py`).

The Python source is shallowly embedded.  The grid random-walk proposal
(`PolicyWalkProposal.__call__`) and the grid reward initializer
(`TBIRLPolicyWalk.initialize_reward`) are pure arithmetic and are
embedded over the exact rationals, so that concrete runs are decidable.
The Metropolis-Hastings acceptance computation (`_mh_ratio`), the
cooling schedule (`_cooling`) and the chain driver (`_policy_walk`) are
embedded over the reals, because the likelihood aggregation needs
`Real.exp` / `Real.log`.  Every random draw made by the Python code
(`choice`, `randint`, `randrange`, `uniform`) becomes an explicit
oracle argument holding the realized draws, so the embedded functions
are deterministic in the oracle.
-/

namespace SIRL

/-- Embedding of `PolicyWalkProposal.__call__` (inference_mcmc.py,
lines 42-55).  `ds` is the realized stream of random draws consumed by
the `while not changed` loop: one `Bool` for `choice([-delta, delta])`
(`true` picks `+delta`) and one index for `randint(self.dim)` per
iteration.  The loop body mutates only the fresh copy
`new_loc = np.array(loc)`, and only in the iteration that sets
`changed`, so a rejected iteration leaves `loc` untouched and the loop
is a plain recursion on the remaining draws; `none` means the draw
stream was exhausted with the loop still spinning. -/
def pwPropose (delta : ℚ) (bounded : Bool) (loc : List ℚ) :
    List (Bool × ℕ) → Option (List ℚ)
  | [] => none
  | (sgn, i) :: rest =>
    let d : ℚ := if sgn then delta else -delta
    let v : ℚ := loc.getD i 0 + d
    if bounded then
      if -1 ≤ v ∧ v ≤ 1 then some (loc.set i v)
      else pwPropose delta bounded loc rest
    else some (loc.set i v)

/-- A finite sequence of chained `PolicyWalkProposal.__call__` calls,
each with its own draw stream; the output of one call is the input of
the next. -/
def pwProposeChain (delta : ℚ) (bounded : Bool) :
    List ℚ → List (List (Bool × ℕ)) → Option (List ℚ)
  | loc, [] => some loc
  | loc, ds :: rest =>
    match pwPropose delta bounded loc ds with
    | none => none
    | some out => pwProposeChain delta bounded out rest

/-- Python `int()` applied to an exact rational: truncation toward
zero. -/
def pyInt (q : ℚ) : ℤ := if 0 ≤ q then ⌊q⌋ else -⌊-q⌋

/-- The grid `loc` built by `TBIRLPolicyWalk.initialize_reward`
(inference_mcmc.py, lines 128-143):
`loc = [-rmax + i * delta for i in range(int(rmax / delta + 1))]`. -/
def gridLocs (rmax delta : ℚ) : List ℚ :=
  (List.range (pyInt (rmax / delta + 1)).toNat).map
    (fun (i : ℕ) => -rmax + (i : ℚ) * delta)

/-- The untempered initial reward of `TBIRLPolicyWalk.initialize_reward`
(inference_mcmc.py): `r = [loc[randrange(int(rmax / delta + 1))] for _
in range(rdim)]`.  `draws` is the realized list of `randrange` outputs,
one per reward dimension. -/
def initRewardGrid (rmax delta : ℚ) (draws : List ℕ) : List ℚ :=
  draws.map (fun j => (gridLocs rmax delta).getD j 0)

lemma pwPropose_some_box (delta : ℚ) (loc : List ℚ) (ds : List (Bool × ℕ))
    (out : List ℚ) (hloc : ∀ x ∈ loc, -1 ≤ x ∧ x ≤ 1)
    (h : pwPropose delta true loc ds = some out) :
    ∀ x ∈ out, -1 ≤ x ∧ x ≤ 1 := by
  induction ds with
  | nil => simp [pwPropose] at h
  | cons p rest ih =>
    obtain ⟨sgn, i⟩ := p
    simp only [pwPropose] at h
    by_cases hb : -1 ≤ loc.getD i 0 + (if sgn then delta else -delta) ∧
        loc.getD i 0 + (if sgn then delta else -delta) ≤ 1
    · rw [if_pos hb] at h
      obtain rfl : loc.set i (loc.getD i 0 + (if sgn then delta else -delta)) = out :=
        Option.some.inj h
      intro x hx
      rcases List.mem_or_eq_of_mem_set hx with hx' | rfl
      · exact hloc x hx'
      · exact hb
    · rw [if_neg hb] at h
      exact ih h

lemma pwProposeChain_some_box (delta : ℚ) (dss : List (List (Bool × ℕ))) :
    ∀ loc out : List ℚ, (∀ x ∈ loc, -1 ≤ x ∧ x ≤ 1) →
    pwProposeChain delta true loc dss = some out →
    ∀ x ∈ out, -1 ≤ x ∧ x ≤ 1 := by
  induction dss with
  | nil =>
    intro loc out hloc h
    obtain rfl : loc = out := Option.some.inj h
    exact hloc
  | cons ds rest ih =>
    intro loc out hloc h
    simp only [pwProposeChain] at h
    cases hcall : pwPropose delta true loc ds with
    | none => rw [hcall] at h; cases h
    | some mid =>
      rw [hcall] at h
      exact ih mid out (pwPropose_some_box delta loc ds mid hloc hcall) h

/-- Claim C2: for every bounded proposal (`bounded=True`) and every
input vector with all components in `[-1, 1]`, any vector returned by a
finite sequence of chained calls (in particular by a single call) again
has every component in `[-1, 1]`. -/
theorem boundedProposalStaysInBox (delta : ℚ) (loc : List ℚ)
    (dss : List (List (Bool × ℕ))) (out : List ℚ)
    (hloc : ∀ x ∈ loc, -1 ≤ x ∧ x ≤ 1)
    (h : pwProposeChain delta true loc dss = some out) :
    ∀ x ∈ out, -1 ≤ x ∧ x ≤ 1 :=
  pwProposeChain_some_box delta dss loc out hloc h

/-- Witness for C2: a concrete bounded call from `[0]` with step `1/2`
and draw `(+, 0)` returns `[1/2]`, whose unique component lies in
`[-1, 1]`. -/
theorem boundedProposalStaysInBox_witness :
    pwProposeChain (1/2) true [0] [[(true, 0)]] = some [1/2] ∧
    (-1 ≤ (1/2 : ℚ) ∧ (1/2 : ℚ) ≤ 1) := by
  have hrun : pwProposeChain (1/2) true [0] [[(true, 0)]] = some [1/2] := by
    simp [pwProposeChain, pwPropose]
    norm_num
  refine ⟨hrun, ?_⟩
  exact boundedProposalStaysInBox (1/2) [0] [[(true, 0)]] [1/2]
    (by intro x hx; simp at hx; subst hx; norm_num) hrun (1/2) (by simp)

lemma getD_set_self (l : List ℚ) (i : ℕ) (v : ℚ) (h : i < l.length) :
    (l.set i v).getD i 0 = v := by
  rw [List.getD_eq_getElem _ _ (by simpa using h)]
  simp

lemma getD_set_ne (l : List ℚ) (i j : ℕ) (v : ℚ) (hj : j ≠ i) :
    (l.set i v).getD j 0 = l.getD j 0 := by
  by_cases h : j < l.length
  · rw [List.getD_eq_getElem _ _ (by simpa using h), List.getD_eq_getElem _ _ h]
    exact List.getElem_set_ne (fun hh => hj hh.symm) _
  · rw [List.getD_eq_default _ _ (by simpa using not_lt.mp h),
        List.getD_eq_default _ _ (not_lt.mp h)]

lemma pwPropose_stuck_of_big_step (delta : ℚ) (hd : 2 < delta) :
    ∀ ds : List (Bool × ℕ), pwPropose delta true [0] ds = none := by
  intro ds
  induction ds with
  | nil => rfl
  | cons p rest ih =>
    obtain ⟨sgn, i⟩ := p
    have hget : ([0] : List ℚ).getD i 0 = 0 := by cases i <;> simp
    cases sgn <;> simp only [pwPropose, hget, Bool.false_eq_true, ite_false,
      ite_true, if_true] <;> rw [if_neg] <;>
      first
        | exact ih
        | (push_neg; intro h1; linarith)

/-- Claim C7 (counterexample): with step size `delta = 3 > 0`, bounded
mode, and the in-box input `[0]`, every draw of the resampling loop is
rejected (`0 + 3` and `0 - 3` both leave `[-1, 1]`), so no draw stream
of any length makes `PolicyWalkProposal.__call__` return: the loop
spins forever instead of terminating with a valid sample. -/
theorem pwProposeTerminatesAlways_counterexample :
    0 < (3 : ℚ) ∧ (-1 ≤ (0 : ℚ) ∧ (0 : ℚ) ≤ 1) ∧
    ¬ (∃ (ds : List (Bool × ℕ)) (out : List ℚ),
        pwPropose 3 true [0] ds = some out) := by
  refine ⟨by norm_num, ⟨by norm_num, by norm_num⟩, ?_⟩
  rintro ⟨ds, out, h⟩
  rw [pwPropose_stuck_of_big_step 3 (by norm_num) ds] at h
  cases h

/-- Claim C7 (amended): for every step size `0 < delta ≤ 1`, a bounded
call on a nonempty input vector with all components in `[-1, 1]` has an
accepting draw: some sign applied to dimension `0` passes the bounds
check on the very first loop iteration, and the returned sample is
valid (all components stay in `[-1, 1]`).  (As stated, with arbitrary
`delta > 0`, the claim is refuted by the counterexample above.) -/
theorem pwProposeTerminatesSmallStep (delta x : ℚ) (xs : List ℚ)
    (hd0 : 0 < delta) (hd1 : delta ≤ 1)
    (hloc : ∀ y ∈ x :: xs, -1 ≤ y ∧ y ≤ 1) :
    ∃ (sgn : Bool) (out : List ℚ),
      pwPropose delta true (x :: xs) [(sgn, 0)] = some out ∧
      ∀ y ∈ out, -1 ≤ y ∧ y ≤ 1 := by
  have hx : -1 ≤ x ∧ x ≤ 1 := hloc x (by simp)
  have hget : (x :: xs).getD 0 0 = x := by simp
  by_cases hsign : x ≤ 0
  · refine ⟨true, (x :: xs).set 0 (x + delta), ?_, ?_⟩
    · simp only [pwPropose, hget, if_true]
      rw [if_pos ⟨by linarith [hx.1], by linarith⟩]
    · refine pwPropose_some_box delta (x :: xs) [(true, 0)] _ hloc ?_
      simp only [pwPropose, hget, if_true]
      rw [if_pos ⟨by linarith [hx.1], by linarith⟩]
  · refine ⟨false, (x :: xs).set 0 (x + -delta), ?_, ?_⟩
    · simp only [pwPropose, hget, Bool.false_eq_true, ite_false, if_true]
      rw [if_pos ⟨by linarith, by linarith [hx.2]⟩]
    · refine pwPropose_some_box delta (x :: xs) [(false, 0)] _ hloc ?_
      simp only [pwPropose, hget, Bool.false_eq_true, ite_false, if_true]
      rw [if_pos ⟨by linarith, by linarith [hx.2]⟩]

/-- Witness for the amended C7: with `delta = 1/2` and input `[0]`, an
accepting draw exists. -/
theorem pwProposeTerminatesSmallStep_witness :
    0 < (1/2 : ℚ) ∧ (1/2 : ℚ) ≤ 1 ∧
    ∃ (sgn : Bool) (out : List ℚ),
      pwPropose (1/2) true [0] [(sgn, 0)] = some out ∧
      ∀ y ∈ out, -1 ≤ y ∧ y ≤ 1 := by
  refine ⟨by norm_num, by norm_num, ?_⟩
  exact pwProposeTerminatesSmallStep (1/2) 0 [] (by norm_num) (by norm_num)
    (by intro y hy; simp at hy; subst hy; norm_num)

/-- Claim C8: every successful `PolicyWalkProposal.__call__` (bounded or
not, step size `delta > 0`, every drawn index within the vector's
dimension, as `randint(self.dim)` guarantees) returns the input with
exactly one dimension `i` changed by exactly `+delta` or `-delta`:
component `i` of the output differs from the input, every other
component is equal, and the output is a fresh vector built by updating
the copy `np.array(loc)`, the input list itself being untouched (the
embedding returns `loc.set i v` and never rebinds `loc`). -/
theorem pwProposeOneDimChange (delta : ℚ) (bounded : Bool) (loc : List ℚ)
    (ds : List (Bool × ℕ)) (out : List ℚ) (hd : 0 < delta)
    (hds : ∀ p ∈ ds, p.2 < loc.length)
    (h : pwPropose delta bounded loc ds = some out) :
    ∃ i < loc.length, ∃ d : ℚ, (d = delta ∨ d = -delta) ∧
      out = loc.set i (loc.getD i 0 + d) ∧
      out.length = loc.length ∧
      out.getD i 0 = loc.getD i 0 + d ∧
      out.getD i 0 ≠ loc.getD i 0 ∧
      ∀ j, j ≠ i → out.getD j 0 = loc.getD j 0 := by
  induction ds with
  | nil => simp [pwPropose] at h
  | cons p rest ih =>
    obtain ⟨sgn, i⟩ := p
    have hi : i < loc.length := by
      simpa using hds (sgn, i) (List.mem_cons_self _ _)
    have hdval : (if sgn then delta else -delta) = delta ∨
        (if sgn then delta else -delta) = -delta := by
      cases sgn <;> simp
    have build : ∀ hout : loc.set i (loc.getD i 0 + (if sgn then delta else -delta)) = out,
        ∃ i' < loc.length, ∃ d : ℚ, (d = delta ∨ d = -delta) ∧
          out = loc.set i' (loc.getD i' 0 + d) ∧
          out.length = loc.length ∧
          out.getD i' 0 = loc.getD i' 0 + d ∧
          out.getD i' 0 ≠ loc.getD i' 0 ∧
          ∀ j, j ≠ i' → out.getD j 0 = loc.getD j 0 := by
      intro hout
      subst hout
      refine ⟨i, hi, (if sgn then delta else -delta), hdval, rfl, by simp, ?_, ?_, ?_⟩
      · exact getD_set_self loc i _ hi
      · rw [getD_set_self loc i _ hi]
        rcases hdval with hd' | hd' <;> rw [hd'] <;> intro hc <;> nlinarith
      · intro j hj
        exact getD_set_ne loc i j _ hj
    simp only [pwPropose] at h
    cases bounded with
    | false =>
      simp only [Bool.false_eq_true, ite_false] at h
      exact build (Option.some.inj h)
    | true =>
      simp only [if_true] at h
      by_cases hb : -1 ≤ loc.getD i 0 + (if sgn then delta else -delta) ∧
          loc.getD i 0 + (if sgn then delta else -delta) ≤ 1
      · rw [if_pos hb] at h
        exact build (Option.some.inj h)
      · rw [if_neg hb] at h
        exact ih (fun q hq => hds q (List.mem_cons_of_mem _ hq)) h

/-- Witness for C8: a concrete unbounded call on `[0, 0]` with draw
`(-, 1)` changes exactly dimension `1` by `-delta`. -/
theorem pwProposeOneDimChange_witness :
    0 < (1/4 : ℚ) ∧
    ∃ i < ([0, 0] : List ℚ).length, ∃ d : ℚ, (d = 1/4 ∨ d = -(1/4)) ∧
      [0, -1/4] = ([0, 0] : List ℚ).set i (([0, 0] : List ℚ).getD i 0 + d) ∧
      ([0, -1/4] : List ℚ).length = ([0, 0] : List ℚ).length ∧
      ([0, -1/4] : List ℚ).getD i 0 = ([0, 0] : List ℚ).getD i 0 + d ∧
      ([0, -1/4] : List ℚ).getD i 0 ≠ ([0, 0] : List ℚ).getD i 0 ∧
      ∀ j, j ≠ i → ([0, -1/4] : List ℚ).getD j 0 = ([0, 0] : List ℚ).getD j 0 := by
  refine ⟨by norm_num, ?_⟩
  exact pwProposeOneDimChange (1/4) false [0, 0] [(false, 1)] [0, -1/4]
    (by norm_num) (by intro p hp; simp at hp; subst hp; simp)
    (by simp [pwPropose]; norm_num)

lemma gridLocs_le_zero (rmax delta : ℚ) (h1 : 0 < rmax) (h2 : 0 < delta) :
    ∀ v ∈ gridLocs rmax delta, -rmax ≤ v ∧ v ≤ 0 := by
  intro v hv
  rw [gridLocs] at hv
  obtain ⟨i, hi, rfl⟩ := List.mem_map.mp hv
  rw [List.mem_range] at hi
  have hx : (0 : ℚ) < rmax / delta := div_pos h1 h2
  have hKeq : pyInt (rmax / delta + 1) = ⌊rmax / delta⌋ + 1 := by
    rw [pyInt, if_pos (by linarith)]
    exact Int.floor_add_one _
  have hiK : (i : ℤ) < ⌊rmax / delta⌋ + 1 := by
    rw [hKeq] at hi
    exact Int.lt_toNat.mp hi
  have hle : (i : ℚ) ≤ rmax / delta := by
    exact_mod_cast Int.le_floor.mp (Int.lt_add_one_iff.mp hiK)
  have hprod : (i : ℚ) * delta ≤ rmax := by
    calc (i : ℚ) * delta ≤ rmax / delta * delta :=
          mul_le_mul_of_nonneg_right hle (le_of_lt h2)
      _ = rmax := div_mul_cancel₀ rmax (ne_of_gt h2)
  have hnn : 0 ≤ (i : ℚ) * delta :=
    mul_nonneg (by exact_mod_cast Nat.zero_le i) (le_of_lt h2)
  exact ⟨by linarith, by linarith⟩

lemma gridLocs_one_fifth :
    gridLocs 1 (1/5) = [-1, -4/5, -3/5, -2/5, -1/5, 0] := by
  have h6 : (pyInt (1 / (1/5 : ℚ) + 1)).toNat = 6 := by
    have h : pyInt (1 / (1/5 : ℚ) + 1) = 6 := by norm_num [pyInt]
    rw [h]; decide
  rw [gridLocs, h6]
  simp only [List.range_succ, List.range_zero, List.map_append, List.map_cons,
    List.map_nil, List.nil_append, List.cons_append, Nat.cast_ofNat]
  norm_num

/-- Claim C5 (counterexample): with `reward_max = 1` and grid step
`delta = 1/5`, the location grid sampled by
`TBIRLPolicyWalk.initialize_reward` in inference_mcmc.py is
`[-1, -4/5, -3/5, -2/5, -1/5, 0]`: the point `1` lies in
`[-Rmax, Rmax]` but is not a possible value of any reward component
(no positive value is), so the initialization is not uniform sampling
within `[-Rmax, Rmax]` and not every point of that range is
attainable. -/
theorem initRewardUniform_counterexample :
    gridLocs 1 (1/5) = [-1, -4/5, -3/5, -2/5, -1/5, 0] ∧
    (-1 ≤ (1 : ℚ) ∧ (1 : ℚ) ≤ 1) ∧ (1 : ℚ) ∉ gridLocs 1 (1/5) := by
  refine ⟨gridLocs_one_fifth, ⟨by norm_num, le_refl 1⟩, ?_⟩
  rw [gridLocs_one_fifth]
  norm_num

/-- Claim C5 (amended): `initialize_reward` of the PolicyWalk sampler in
inference_mcmc.py (without tempering) draws each reward component
uniformly from the finite grid
`{-Rmax + i * delta : 0 <= i < int(Rmax/delta + 1)}`; every possible
component lies in `[-Rmax, 0]`, hence within `[-Rmax, Rmax]`, but not
every point of `[-Rmax, Rmax]` is attainable (see the
counterexample). -/
theorem initRewardGridBounds (rmax delta : ℚ) (draws : List ℕ)
    (h1 : 0 < rmax) (h2 : 0 < delta) :
    ∀ v ∈ initRewardGrid rmax delta draws, -rmax ≤ v ∧ v ≤ 0 ∧ v ≤ rmax := by
  intro v hv
  simp only [initRewardGrid, List.mem_map] at hv
  obtain ⟨j, hj, rfl⟩ := hv
  by_cases hlt : j < (gridLocs rmax delta).length
  · have hmem : (gridLocs rmax delta).getD j 0 ∈ gridLocs rmax delta := by
      rw [List.getD_eq_getElem _ _ hlt]
      exact List.getElem_mem hlt
    have hb := gridLocs_le_zero rmax delta h1 h2 _ hmem
    exact ⟨hb.1, hb.2, by linarith [hb.2]⟩
  · rw [List.getD_eq_default _ _ (not_lt.mp hlt)]
    exact ⟨by linarith, le_refl 0, by linarith⟩

/-- Witness for the amended C5: with `Rmax = 1`, `delta = 1/5` and the
single draw `0`, the produced component is `-1`, inside `[-1, 0]`. -/
theorem initRewardGridBounds_witness :
    0 < (1 : ℚ) ∧ 0 < (1/5 : ℚ) ∧
    (-1 ≤ (-1 : ℚ) ∧ (-1 : ℚ) ≤ 0 ∧ (-1 : ℚ) ≤ 1) := by
  refine ⟨by norm_num, by norm_num, ?_⟩
  refine initRewardGridBounds 1 (1/5) [0] (by norm_num) (by norm_num) (-1) ?_
  simp only [initRewardGrid, List.map_cons, List.map_nil, gridLocs_one_fifth,
    List.getD_cons_zero, List.mem_singleton]

/-- `scipy.misc.logsumexp` on a nonempty list: the log of the sum of
exponentials of the entries. -/
noncomputable def logsumexp (z : List ℝ) : ℝ := Real.log ((z.map Real.exp).sum)

/-- The flat list `z` built by the triple loop of
`TBIRLPolicyWalk._mh_ratio` (inference_mcmc.py lines 222-226): for each
`q_e` in `QE`, for each inner list `QP_i` of `QPi`, for each `q_i` in
`QP_i`, append `beta * (q_i - q_e)`. -/
def mhZ (beta : ℝ) (qe : List ℝ) (qpi : List (List ℝ)) : List ℝ :=
  qe.flatMap (fun a => qpi.flatMap (fun l => l.map (fun b => beta * (b - a))))

/-- Embedding of `TBIRLPolicyWalk._mh_ratio` (inference_mcmc.py lines
191-237), identical in iterative_birl.py.  The reward prior is embedded
by its `log_p` callable (opaque, per the spec's data model), whose
returned array `np.sum` reduces. -/
noncomputable def mhRatioFn (beta : ℝ) (logp : List ℝ → List ℝ)
    (r rNew qe qeNew : List ℝ) (qpi qpiNew : List (List ℝ)) : ℝ :=
  let pNew := (logp rNew).sum
  let p := (logp r).sum
  let lk := -logsumexp (mhZ beta qe qpi)
  let lkNew := -logsumexp (mhZ beta qeNew qpiNew)
  (lkNew + pNew) / (lk + p)

/-- The flat list in the words of the spec for claim C1:
`beta * (q_generated - q_expert)` over all pairs of an expert
start-state quality from `QE` and a generated-trajectory quality from
`QPi` (the nested quality lists flattened). -/
def specZ (beta : ℝ) (qe : List ℝ) (qpi : List (List ℝ)) : List ℝ :=
  qe.flatMap (fun a => qpi.flatten.map (fun b => beta * (b - a)))

lemma mhZ_eq_specZ (beta : ℝ) (qe : List ℝ) (qpi : List (List ℝ)) :
    mhZ beta qe qpi = specZ beta qe qpi := by
  unfold mhZ specZ
  congr 1
  funext a
  rw [List.flatMap_def, ← List.map_flatten]

/-- Claim C1: `_mh_ratio(r, r_new, QE, QE_new, QPi, QPi_new)` returns
`(lk_new + p_new) / (lk + p)`, where `p` and `p_new` are the summed
prior log-densities of `r` and `r_new`, and `lk` (resp. `lk_new`) is
the negated log-sum-exp of the flat list of `beta * (q_generated -
q_expert)` values over all pairs built from `QE` and `QPi` (resp.
`QE_new` and `QPi_new`). -/
theorem mhRatioMatchesSpec (beta : ℝ) (logp : List ℝ → List ℝ)
    (r rNew qe qeNew : List ℝ) (qpi qpiNew : List (List ℝ)) :
    mhRatioFn beta logp r rNew qe qeNew qpi qpiNew =
      (-logsumexp (specZ beta qeNew qpiNew) + (logp rNew).sum) /
      (-logsumexp (specZ beta qe qpi) + (logp r).sum) := by
  simp only [mhRatioFn, mhZ_eq_specZ]

/-- `TBIRLPolicyWalk._cooling` (inference_mcmc.py lines 249-251):
`5 + step / 50.0`. -/
noncomputable def cooling (step : ℕ) : ℝ := 5 + (step : ℝ) / 50

/-- The acceptance probability computed by `_policy_walk`
(inference_mcmc.py lines 171-173): `min(1, mh_ratio)`, raised to the
cooling exponent when tempering is enabled.  Python's float `**` on a
nonnegative base is real exponentiation, embedded as `Real.rpow`. -/
noncomputable def acceptProb (tempered : Bool) (rho : ℝ) (step : ℕ) : ℝ :=
  if tempered then (min 1 rho) ^ cooling step else min 1 rho

lemma cooling_pos (s : ℕ) : 0 < cooling s := by
  unfold cooling
  positivity

lemma cooling_le_cooling (s1 s2 : ℕ) (h : s1 ≤ s2) : cooling s1 ≤ cooling s2 := by
  unfold cooling
  have hc : (s1 : ℝ) ≤ s2 := Nat.cast_le.mpr h
  linarith

/-- Claim C6: with cooling enabled, for any fixed underlying acceptance
quotient `rho` (nonnegative: Python's float `**` produces a real number
only for a nonnegative base) the tempered acceptance probability
`min(1, rho) ** (5 + step/50)` is non-increasing in the step index, and
the cooling exponent `5 + step/50` is strictly increasing in the step;
in particular the acceptance probability at step 500 is at most the one
at step 1. -/
theorem coolingMakesAcceptanceSelective (rho : ℝ) (hrho : 0 ≤ rho)
    (s1 s2 : ℕ) (h : s1 ≤ s2) :
    acceptProb true rho s2 ≤ acceptProb true rho s1 ∧
    (s1 < s2 → cooling s1 < cooling s2) := by
  constructor
  · simp only [acceptProb, if_true]
    have hx0 : 0 ≤ min 1 rho := le_min zero_le_one hrho
    have hx1 : min 1 rho ≤ 1 := min_le_left _ _
    rcases eq_or_lt_of_le hx0 with hz | hpos
    · rw [← hz, Real.zero_rpow (ne_of_gt (cooling_pos s2)),
        Real.zero_rpow (ne_of_gt (cooling_pos s1))]
    · exact Real.rpow_le_rpow_of_exponent_ge hpos hx1 (cooling_le_cooling s1 s2 h)
  · intro hlt
    unfold cooling
    have hc : (s1 : ℝ) < s2 := Nat.cast_lt.mpr hlt
    linarith

/-- Witness for C6 at `rho = 1/2`, steps 1 and 500. -/
theorem coolingMakesAcceptanceSelective_witness :
    0 ≤ (1/2 : ℝ) ∧ (1 : ℕ) ≤ 500 ∧
    (acceptProb true (1/2) 500 ≤ acceptProb true (1/2) 1 ∧
      ((1 : ℕ) < 500 → cooling 1 < cooling 500)) :=
  ⟨by norm_num, by norm_num,
    coolingMakesAcceptanceSelective (1/2) (by norm_num) 1 500 (by norm_num)⟩

/-- Configuration of `TBIRLPolicyWalk` relevant to `_policy_walk`:
`beta` (softmax temperature), `mcmc_iter`, `burn` and the `cooling`
flag stored as `self._tempered`. -/
structure PWConfig where
  beta : ℝ
  mcmcIter : ℕ
  burn : ℚ
  tempered : Bool

/-- The realized random draws and the external callables used by one
`_policy_walk` invocation: `prop step` is the realized output of
`p_dist(loc=r_mean)` at the given step, `unif step` the `uniform(0, 1)`
draw, `qE` and `qPi` the trajectory-quality evaluators
(`_expert_trajectory_quality` and `_generated_trajectory_quality` with
the fixed generated trajectories, both defined outside this module) and
`logp` the prior's `log_p` callable. -/
structure PWOracle where
  prop : ℕ → List ℝ
  unif : ℕ → ℝ
  qE : List ℝ → List ℝ
  qPi : List ℝ → List (List ℝ)
  logp : List ℝ → List ℝ

/-- The loop state of `_policy_walk`: the running mean `r_mean`, the
local variables `QE` and `QPi` computed before the loop, and the
diagnostic lists of `self.data` touched by the invocation. -/
structure PWState where
  rMean : List ℝ
  sQE : List ℝ
  sQPi : List (List ℝ)
  qloss : List ℝ
  trace : List (List ℝ)
  walk : List (List ℝ)
  accepts : List ℕ

/-- `TBIRLPolicyWalk._iterative_reward_mean` (inference_mcmc.py lines
239-247): `((step - 1) / float(step)) * m_r + 1.0 / step * r`,
component-wise over `zip(r_mean, r_new)`. -/
noncomputable def iterativeRewardMean (rMean rNew : List ℝ) (step : ℕ) : List ℝ :=
  List.zipWith (fun m r => (((step : ℝ) - 1) / (step : ℝ)) * m + 1 / (step : ℝ) * r)
    rMean rNew

/-- The burn threshold of `_policy_walk` (line 163):
`int(self._mcmc_iter * self._burn / 100)`. -/
def burnPoint (mcmcIter : ℕ) (burn : ℚ) : ℤ := pyInt ((mcmcIter : ℚ) * burn / 100)

/-- The state set up by `_policy_walk` before its loop (lines 155-163):
`r_mean` starts as a deep copy of the initial reward, `QE` and `QPi`
are evaluated once at it, and the quality-loss diagnostic
`sum([sum(Qe - Qp for Qe, Qp in zip(QE, Q_i)) for Q_i in QPi])` is
appended to `self.data['qloss']`. -/
noncomputable def pwInit (o : PWOracle) (r0 : List ℝ) : PWState :=
  { rMean := r0
    sQE := o.qE r0
    sQPi := o.qPi r0
    qloss := [((o.qPi r0).map (fun qi =>
        ((List.zip (o.qE r0) qi).map (fun pr => pr.1 - pr.2)).sum)).sum]
    trace := []
    walk := []
    accepts := [] }

/-- One iteration of the `for step in range(1, mcmc_iter+1)` loop of
`_policy_walk` (inference_mcmc.py lines 165-186): propose, evaluate
qualities at the proposal, compute the acceptance probability from
`_mh_ratio` (with optional cooling), accept into the running mean when
it beats the uniform draw, and append to the trace/walk lists once past
the burn threshold. -/
noncomputable def pwStepRun (cfg : PWConfig) (o : PWOracle) (s : PWState)
    (step : ℕ) : PWState :=
  let rNew := o.prop step
  let rho := mhRatioFn cfg.beta o.logp s.rMean rNew s.sQE (o.qE rNew) s.sQPi (o.qPi rNew)
  let s1 := if acceptProb cfg.tempered rho step > o.unif step then
      { s with rMean := iterativeRewardMean s.rMean rNew step,
               accepts := s.accepts ++ [1] }
    else s
  if (step : ℤ) > burnPoint cfg.mcmcIter cfg.burn then
    { s1 with trace := s1.trace ++ [s1.rMean], walk := s1.walk ++ [rNew] }
  else s1

/-- The state after the first `n` loop iterations of `_policy_walk`. -/
noncomputable def pwRun (cfg : PWConfig) (o : PWOracle) (r0 : List ℝ) (n : ℕ) : PWState :=
  (List.range' 1 n).foldl (pwStepRun cfg o) (pwInit o r0)

/-- `TBIRLPolicyWalk._policy_walk` (lines 153-189): run all `mcmc_iter`
loop iterations from the realized initial reward `r0` and return the
final running mean. -/
noncomputable def policyWalk (cfg : PWConfig) (o : PWOracle) (r0 : List ℝ) : List ℝ :=
  (pwRun cfg o r0 cfg.mcmcIter).rMean

/-- The Metropolis-Hastings quotient computed by line 170 at loop step
`step ≥ 1`. -/
noncomputable def rhoAt (cfg : PWConfig) (o : PWOracle) (r0 : List ℝ) (step : ℕ) : ℝ :=
  mhRatioFn cfg.beta o.logp (pwRun cfg o r0 (step - 1)).rMean (o.prop step)
    (pwRun cfg o r0 (step - 1)).sQE (o.qE (o.prop step))
    (pwRun cfg o r0 (step - 1)).sQPi (o.qPi (o.prop step))

/-- The acceptance test of line 175 at loop step `step`:
`accept_probability > uniform(0, 1)`. -/
noncomputable def acceptsAt (cfg : PWConfig) (o : PWOracle) (r0 : List ℝ)
    (step : ℕ) : Prop :=
  acceptProb cfg.tempered (rhoAt cfg o r0 step) step > o.unif step

lemma pwRun_zero (cfg : PWConfig) (o : PWOracle) (r0 : List ℝ) :
    pwRun cfg o r0 0 = pwInit o r0 := rfl

lemma pwRun_succ (cfg : PWConfig) (o : PWOracle) (r0 : List ℝ) (n : ℕ) :
    pwRun cfg o r0 (n + 1) = pwStepRun cfg o (pwRun cfg o r0 n) (n + 1) := by
  unfold pwRun
  rw [List.range'_concat, List.foldl_append, List.foldl_cons, List.foldl_nil]
  have h : 1 + 1 * n = n + 1 := by omega
  rw [h]

lemma pwStepRun_sQE (cfg : PWConfig) (o : PWOracle) (s : PWState) (step : ℕ) :
    (pwStepRun cfg o s step).sQE = s.sQE := by
  simp only [pwStepRun]
  split <;> split <;> rfl

lemma pwStepRun_sQPi (cfg : PWConfig) (o : PWOracle) (s : PWState) (step : ℕ) :
    (pwStepRun cfg o s step).sQPi = s.sQPi := by
  simp only [pwStepRun]
  split <;> split <;> rfl

lemma pwRun_sQE (cfg : PWConfig) (o : PWOracle) (r0 : List ℝ) (n : ℕ) :
    (pwRun cfg o r0 n).sQE = o.qE r0 := by
  induction n with
  | zero => rfl
  | succ k ih => rw [pwRun_succ, pwStepRun_sQE, ih]

lemma pwRun_sQPi (cfg : PWConfig) (o : PWOracle) (r0 : List ℝ) (n : ℕ) :
    (pwRun cfg o r0 n).sQPi = o.qPi r0 := by
  induction n with
  | zero => rfl
  | succ k ih => rw [pwRun_succ, pwStepRun_sQPi, ih]

/-- Claim C10: throughout one `_policy_walk` invocation, the
current-reward quality lists `QE` and `QPi` passed to `_mh_ratio` stay
the ones computed once at the initial reward before the loop (no step,
accepted or not, recomputes or replaces them), so the denominator
`lk + p` of the acceptance quotient at every step keeps the same
constant likelihood part `lk`, built from `qE r0` and `qPi r0`, and
only the prior part `p`, evaluated at the current running mean,
varies. -/
theorem qualityListsConstantInChain (cfg : PWConfig) (o : PWOracle)
    (r0 : List ℝ) (n : ℕ) :
    (pwRun cfg o r0 n).sQE = o.qE r0 ∧
    (pwRun cfg o r0 n).sQPi = o.qPi r0 ∧
    rhoAt cfg o r0 (n + 1) =
      (-logsumexp (mhZ cfg.beta (o.qE (o.prop (n + 1))) (o.qPi (o.prop (n + 1)))) +
        (o.logp (o.prop (n + 1))).sum) /
      (-logsumexp (mhZ cfg.beta (o.qE r0) (o.qPi r0)) +
        (o.logp (pwRun cfg o r0 n).rMean).sum) := by
  refine ⟨pwRun_sQE cfg o r0 n, pwRun_sQPi cfg o r0 n, ?_⟩
  unfold rhoAt
  rw [Nat.add_sub_cancel, pwRun_sQE, pwRun_sQPi]
  simp only [mhRatioFn]

lemma pwStepRun_trace_len (cfg : PWConfig) (o : PWOracle) (s : PWState) (step : ℕ) :
    (pwStepRun cfg o s step).trace.length =
      s.trace.length +
        (if (step : ℤ) > burnPoint cfg.mcmcIter cfg.burn then 1 else 0) := by
  simp only [pwStepRun]
  split <;> split <;> simp

lemma pwStepRun_walk_len (cfg : PWConfig) (o : PWOracle) (s : PWState) (step : ℕ) :
    (pwStepRun cfg o s step).walk.length =
      s.walk.length +
        (if (step : ℤ) > burnPoint cfg.mcmcIter cfg.burn then 1 else 0) := by
  simp only [pwStepRun]
  split <;> split <;> simp

lemma pwRun_trace_len (cfg : PWConfig) (o : PWOracle) (r0 : List ℝ)
    (hb : 0 ≤ burnPoint cfg.mcmcIter cfg.burn) (n : ℕ) :
    (pwRun cfg o r0 n).trace.length =
      n - (burnPoint cfg.mcmcIter cfg.burn).toNat := by
  induction n with
  | zero => simp [pwRun_zero, pwInit]
  | succ k ih =>
    rw [pwRun_succ, pwStepRun_trace_len, ih]
    split <;> omega

lemma pwRun_walk_len (cfg : PWConfig) (o : PWOracle) (r0 : List ℝ)
    (hb : 0 ≤ burnPoint cfg.mcmcIter cfg.burn) (n : ℕ) :
    (pwRun cfg o r0 n).walk.length =
      n - (burnPoint cfg.mcmcIter cfg.burn).toNat := by
  induction n with
  | zero => simp [pwRun_zero, pwInit]
  | succ k ih =>
    rw [pwRun_succ, pwStepRun_walk_len, ih]
    split <;> omega

/-- Claim C4: in one `_policy_walk` invocation with `burn ≥ 0`, the burn
threshold `int(mcmc_iter * burn / 100)` equals
`floor(mcmc_iter * burn / 100)`; the number of entries appended to the
trace list and to the walk list is exactly `mcmc_iter - burn_point`
when `burn_point < mcmc_iter` and `0` when `burn_point ≥ mcmc_iter`
(the lists start empty, so their final lengths count the appends); and
`burn_point ≤ mcmc_iter` whenever additionally `burn ≤ 100`. -/
theorem burnThresholdAndTraceLen (cfg : PWConfig) (o : PWOracle) (r0 : List ℝ)
    (hb : 0 ≤ cfg.burn) :
    burnPoint cfg.mcmcIter cfg.burn = ⌊(cfg.mcmcIter : ℚ) * cfg.burn / 100⌋ ∧
    (pwRun cfg o r0 cfg.mcmcIter).trace.length =
      (if (burnPoint cfg.mcmcIter cfg.burn).toNat < cfg.mcmcIter
       then cfg.mcmcIter - (burnPoint cfg.mcmcIter cfg.burn).toNat else 0) ∧
    (pwRun cfg o r0 cfg.mcmcIter).walk.length =
      (if (burnPoint cfg.mcmcIter cfg.burn).toNat < cfg.mcmcIter
       then cfg.mcmcIter - (burnPoint cfg.mcmcIter cfg.burn).toNat else 0) ∧
    (cfg.burn ≤ 100 → burnPoint cfg.mcmcIter cfg.burn ≤ (cfg.mcmcIter : ℤ)) := by
  have hq : (0 : ℚ) ≤ (cfg.mcmcIter : ℚ) * cfg.burn / 100 :=
    div_nonneg (mul_nonneg (Nat.cast_nonneg _) hb) (by norm_num)
  have hfloor : burnPoint cfg.mcmcIter cfg.burn =
      ⌊(cfg.mcmcIter : ℚ) * cfg.burn / 100⌋ := by
    rw [burnPoint, pyInt, if_pos hq]
  have hbp : 0 ≤ burnPoint cfg.mcmcIter cfg.burn := by
    rw [hfloor]
    exact Int.floor_nonneg.mpr hq
  refine ⟨hfloor, ?_, ?_, ?_⟩
  · rw [pwRun_trace_len cfg o r0 hbp]
    split <;> omega
  · rw [pwRun_walk_len cfg o r0 hbp]
    split <;> omega
  · intro h100
    rw [hfloor]
    have hle : (cfg.mcmcIter : ℚ) * cfg.burn / 100 ≤ (cfg.mcmcIter : ℚ) := by
      rw [div_le_iff₀ (by norm_num : (0 : ℚ) < 100)]
      exact mul_le_mul_of_nonneg_left h100 (Nat.cast_nonneg _)
    calc ⌊(cfg.mcmcIter : ℚ) * cfg.burn / 100⌋ ≤ ⌊(cfg.mcmcIter : ℚ)⌋ :=
          Int.floor_le_floor hle
      _ = (cfg.mcmcIter : ℤ) := Int.floor_natCast _

/-- A concrete configuration for the C4 witness: `mcmc_iter = 10`,
`burn = 20`. -/
noncomputable def cfgW4 : PWConfig :=
  { beta := 1, mcmcIter := 10, burn := 20, tempered := false }

/-- A concrete degenerate oracle for the C4 witness. -/
noncomputable def oW4 : PWOracle :=
  { prop := fun _ => [0], unif := fun _ => 0, qE := fun _ => [0],
    qPi := fun _ => [[0]], logp := fun _ => [1] }

/-- Witness for C4 at `mcmc_iter = 10`, `burn = 20`. -/
theorem burnThresholdAndTraceLen_witness :
    0 ≤ cfgW4.burn ∧
    (burnPoint cfgW4.mcmcIter cfgW4.burn = ⌊(cfgW4.mcmcIter : ℚ) * cfgW4.burn / 100⌋ ∧
    (pwRun cfgW4 oW4 [0] cfgW4.mcmcIter).trace.length =
      (if (burnPoint cfgW4.mcmcIter cfgW4.burn).toNat < cfgW4.mcmcIter
       then cfgW4.mcmcIter - (burnPoint cfgW4.mcmcIter cfgW4.burn).toNat else 0) ∧
    (pwRun cfgW4 oW4 [0] cfgW4.mcmcIter).walk.length =
      (if (burnPoint cfgW4.mcmcIter cfgW4.burn).toNat < cfgW4.mcmcIter
       then cfgW4.mcmcIter - (burnPoint cfgW4.mcmcIter cfgW4.burn).toNat else 0) ∧
    (cfgW4.burn ≤ 100 → burnPoint cfgW4.mcmcIter cfgW4.burn ≤ (cfgW4.mcmcIter : ℤ))) :=
  ⟨by norm_num [cfgW4], burnThresholdAndTraceLen cfgW4 oW4 [0] (by norm_num [cfgW4])⟩

lemma pwStepRun_rMean_of_accept (cfg : PWConfig) (o : PWOracle) (s : PWState)
    (step : ℕ)
    (h : acceptProb cfg.tempered
        (mhRatioFn cfg.beta o.logp s.rMean (o.prop step) s.sQE (o.qE (o.prop step))
          s.sQPi (o.qPi (o.prop step))) step > o.unif step) :
    (pwStepRun cfg o s step).rMean = iterativeRewardMean s.rMean (o.prop step) step := by
  simp only [pwStepRun]
  rw [if_pos h]
  split <;> rfl

lemma acceptsAt_succ_iff (cfg : PWConfig) (o : PWOracle) (r0 : List ℝ) (n : ℕ) :
    acceptsAt cfg o r0 (n + 1) ↔
      acceptProb cfg.tempered
        (mhRatioFn cfg.beta o.logp (pwRun cfg o r0 n).rMean (o.prop (n + 1))
          (pwRun cfg o r0 n).sQE (o.qE (o.prop (n + 1)))
          (pwRun cfg o r0 n).sQPi (o.qPi (o.prop (n + 1)))) (n + 1) >
        o.unif (n + 1) := by
  unfold acceptsAt rhoAt
  rw [Nat.add_sub_cancel]

lemma pwStepRun_rMean_cases (cfg : PWConfig) (o : PWOracle) (s : PWState) (step : ℕ) :
    (pwStepRun cfg o s step).rMean = s.rMean ∨
    (pwStepRun cfg o s step).rMean = iterativeRewardMean s.rMean (o.prop step) step := by
  simp only [pwStepRun]
  split <;> split <;> simp

lemma pwRun_rMean_len (cfg : PWConfig) (o : PWOracle) (r0 : List ℝ)
    (hlen : ∀ k, (o.prop k).length = r0.length) (n : ℕ) :
    (pwRun cfg o r0 n).rMean.length = r0.length := by
  induction n with
  | zero => rfl
  | succ k ih =>
    rw [pwRun_succ]
    rcases pwStepRun_rMean_cases cfg o (pwRun cfg o r0 k) (k + 1) with h | h <;> rw [h]
    · exact ih
    · rw [iterativeRewardMean, List.length_zipWith, ih, hlen]
      exact min_self _

lemma iterativeRewardMean_getD (rMean rNew : List ℝ) (step j : ℕ)
    (h1 : j < rMean.length) (h2 : j < rNew.length) :
    (iterativeRewardMean rMean rNew step).getD j 0 =
      (((step : ℝ) - 1) / (step : ℝ)) * rMean.getD j 0 +
      1 / (step : ℝ) * rNew.getD j 0 := by
  unfold iterativeRewardMean
  rw [List.getD_eq_getElem _ _ (by rw [List.length_zipWith]; omega),
    List.getElem_zipWith, List.getD_eq_getElem _ _ h1, List.getD_eq_getElem _ _ h2]

/-- Claim C3: if the acceptance test succeeds at every step of one
`_policy_walk` invocation with `mcmc_iter = N ≥ 1`, the running mean
returned at the end equals the component-wise arithmetic mean of the
`N` proposed samples `r_new`: the incremental update
`mean <- ((step-1)/step) * mean + (1/step) * r_new`, applied at steps
`1..N` starting from the initial reward, yields exactly this arithmetic
mean (the initial reward drops out at step 1, whose coefficient is
`(1-1)/1 = 0`). -/
theorem runningMeanOfAllAccepted (cfg : PWConfig) (o : PWOracle) (r0 : List ℝ)
    (N : ℕ) (hN : 1 ≤ N)
    (hlen : ∀ k, (o.prop k).length = r0.length)
    (hacc : ∀ k, 1 ≤ k → k ≤ N → acceptsAt cfg o r0 k) :
    ∀ j, j < r0.length →
      (pwRun cfg o r0 N).rMean.getD j 0 =
        (∑ k in Finset.Icc 1 N, (o.prop k).getD j 0) / (N : ℝ) := by
  revert hacc
  induction N, hN using Nat.le_induction with
  | base =>
    intro hacc j hj
    have hac := (acceptsAt_succ_iff cfg o r0 0).mp (hacc 1 le_rfl le_rfl)
    have h1 : pwRun cfg o r0 1 = pwStepRun cfg o (pwRun cfg o r0 0) 1 :=
      pwRun_succ cfg o r0 0
    rw [h1, pwStepRun_rMean_of_accept cfg o (pwRun cfg o r0 0) 1 hac]
    have hm : (pwRun cfg o r0 0).rMean = r0 := rfl
    rw [iterativeRewardMean_getD _ _ _ j (by rw [hm]; exact hj)
      (by rw [hlen]; exact hj)]
    rw [Finset.Icc_self, Finset.sum_singleton]
    norm_num
  | succ n hn ih =>
    intro hacc j hj
    have hac := (acceptsAt_succ_iff cfg o r0 n).mp (hacc (n + 1) (by omega) le_rfl)
    rw [pwRun_succ, pwStepRun_rMean_of_accept cfg o (pwRun cfg o r0 n) (n + 1) hac]
    have hlenM : (pwRun cfg o r0 n).rMean.length = r0.length :=
      pwRun_rMean_len cfg o r0 hlen n
    rw [iterativeRewardMean_getD _ _ _ j (by rw [hlenM]; exact hj)
      (by rw [hlen]; exact hj)]
    rw [ih (fun k hk1 hk2 => hacc k hk1 (by omega)) j hj]
    rw [Finset.sum_Icc_succ_top (by omega : 1 ≤ n + 1)]
    have hn0 : (1 : ℝ) ≤ (n : ℝ) := by exact_mod_cast hn
    have hne : (n : ℝ) ≠ 0 := by linarith
    have hne1 : ((n : ℝ) + 1) ≠ 0 := by linarith
    push_cast
    field_simp
    ring

/-- A concrete configuration for the C3 witness: one MCMC step. -/
noncomputable def cfgW3 : PWConfig :=
  { beta := 1, mcmcIter := 1, burn := 0, tempered := false }

/-- A concrete oracle for the C3 witness whose acceptance quotient is
`1` at every step, so every step accepts against the uniform draw `0`. -/
noncomputable def oW3 : PWOracle :=
  { prop := fun _ => [1/2], unif := fun _ => 0, qE := fun _ => [0],
    qPi := fun _ => [[0]], logp := fun _ => [1] }

/-- Witness for C3: with one step and everything accepted, the final
running mean component equals the lone proposal component `1/2`. -/
theorem runningMeanOfAllAccepted_witness :
    0 < ([0] : List ℝ).length ∧
    (pwRun cfgW3 oW3 [0] 1).rMean.getD 0 0 =
      (∑ k in Finset.Icc 1 1, (oW3.prop k).getD 0 0) / ((1 : ℕ) : ℝ) := by
  refine ⟨by norm_num, ?_⟩
  refine runningMeanOfAllAccepted cfgW3 oW3 [0] 1 le_rfl
    (fun k => by simp [oW3]) ?_ 0 (by norm_num)
  intro k hk1 hk2
  have hk : k = 1 := le_antisymm hk2 hk1
  subst hk
  unfold acceptsAt
  have hrho : rhoAt cfgW3 oW3 [0] 1 = 1 := by
    unfold rhoAt
    have h0 : (1 : ℕ) - 1 = 0 := rfl
    rw [h0, pwRun_zero]
    simp only [pwInit, cfgW3, oW3, mhRatioFn, mhZ, logsumexp]
    simp [Real.exp_zero, Real.log_one]
  rw [hrho]
  simp [acceptProb, cfgW3, oW3]

end SIRL
